import Mathlib

/-!
Shallow embedding of `src/main.cc` (an OpenMP loop-scheduling benchmark) and
proofs about its two kernels, its initialization routines, and its checksums.

The C program works on global arrays `a[N][N]`, `b[N][N]`, `c[N]`, `jmax[N]`
of `double` / `int`, with `N = 729` and `reps = 100`.  We model the program
state as a structure of total functions on natural-number indices (the program
only ever touches indices below `N`), with `double` idealized as `ℚ` and the
transcendental functions `cos` and `log` kept abstract as parameters
`cosf, logf : ℚ → ℚ` — every claim below is about which cells are written and
how values are accumulated, not about the analytic values of `cos`/`log`.
Each C `for` loop is translated as a left fold over the list of index values
it visits, in the order the C loop visits them.
-/

namespace OMPSched

/-- Matrix dimension, from `#define N 729` in main.cc. -/
def N : ℕ := 729

/-- Repetition count, from `#define reps 100` in main.cc. -/
def reps : ℕ := 100

/-- Global program state: the arrays `a`, `b`, `c`, `jmax` of main.cc line
16-17, modelled as total functions on natural indices. -/
@[ext] structure GState where
  a : ℕ → ℕ → ℚ
  b : ℕ → ℕ → ℚ
  c : ℕ → ℚ
  jmax : ℕ → ℕ

/-- Write `v` into cell `(i, j)` of array `a`. -/
def setA (s : GState) (i j : ℕ) (v : ℚ) : GState :=
  { s with a := fun i2 j2 => if i2 = i ∧ j2 = j then v else s.a i2 j2 }

/-- Write `v` into cell `(i, j)` of array `b`. -/
def setB (s : GState) (i j : ℕ) (v : ℚ) : GState :=
  { s with b := fun i2 j2 => if i2 = i ∧ j2 = j then v else s.b i2 j2 }

/-- Write `v` into slot `i` of vector `c`. -/
def setC (s : GState) (i : ℕ) (v : ℚ) : GState :=
  { s with c := fun i2 => if i2 = i then v else s.c i2 }

/-- Write `v` into slot `i` of vector `jmax`. -/
def setJmax (s : GState) (i v : ℕ) : GState :=
  { s with jmax := fun i2 => if i2 = i then v else s.jmax i2 }

/-- Body of Kernel A for one cell: `a[i][j] += cos(b[i][j])` (main.cc line
25), with the transcendental `cos` abstract. -/
def stepA (cosf : ℚ → ℚ) (i : ℕ) (s : GState) (j : ℕ) : GState :=
  setA s i j (s.a i j + cosf (s.b i j))

/-- Inner loop of `loop1chunk`: `for (j=N-1; j>i; j--)` (main.cc line 24),
i.e. `j` runs over `[i+1, N-1]` in decreasing order. -/
def rowA (cosf : ℚ → ℚ) (s : GState) (i : ℕ) : GState :=
  ((List.range' (i + 1) (N - 1 - i)).reverse).foldl (stepA cosf i) s

/-- Embedding of `loop1chunk` (main.cc lines 19-28): for each outer index `i`
in `[lo, hi)` run the row-`i` inner loop.  The `omp parallel for` pragma
distributes the outer iterations; since rows are written exclusively
(see `rowExclusivity`), the sequential fold is its functional meaning. -/
def loop1chunk (cosf : ℚ → ℚ) (lo hi : ℕ) (s : GState) : GState :=
  (List.range' lo (hi - lo)).foldl (rowA cosf) s

/-- The constant `rN2 = 1.0 / (double)(N*N)` of `loop2chunk` (main.cc line
34). -/
def rN2 : ℚ := 1 / ((N : ℚ) * N)

/-- Innermost statement of `loop2chunk`: `c[i] += (k+1) * log(b[i][j]) * rN2`
(main.cc line 40), with the transcendental `log` abstract. -/
def stepB (logf : ℚ → ℚ) (i j : ℕ) (s : GState) (k : ℕ) : GState :=
  setC s i (s.c i + ((k : ℚ) + 1) * logf (s.b i j) * rN2)

/-- The `k` loop of `loop2chunk`: `for (k=0; k<j; k++)` (main.cc line 39). -/
def rowBj (logf : ℚ → ℚ) (i : ℕ) (s : GState) (j : ℕ) : GState :=
  (List.range j).foldl (stepB logf i j) s

/-- The `j` loop of `loop2chunk` for one row: `for (j=0; j<jmax[i]; j++)`
(main.cc line 38); the loop body never writes `jmax`, so reading the bound
once at row entry is the loop's meaning. -/
def rowB (logf : ℚ → ℚ) (s : GState) (i : ℕ) : GState :=
  (List.range (s.jmax i)).foldl (rowBj logf i) s

/-- Embedding of `loop2chunk` (main.cc lines 30-45). -/
def loop2chunk (logf : ℚ → ℚ) (lo hi : ℕ) (s : GState) : GState :=
  (List.range' lo (hi - lo)).foldl (rowB logf) s

/-- Body of the `init1` double loop (main.cc lines 72-73):
`a[i][j] = 0.0; b[i][j] = 3.142*(i+j);`. -/
def stepInit1 (i : ℕ) (s : GState) (j : ℕ) : GState :=
  setB (setA s i j 0) i j ((3.142 : ℚ) * ((i : ℚ) + (j : ℚ)))

/-- One row of `init1`. -/
def rowInit1 (s : GState) (i : ℕ) : GState :=
  (List.range N).foldl (stepInit1 i) s

/-- Embedding of `init1` (main.cc lines 66-76). -/
def init1 (s : GState) : GState :=
  (List.range N).foldl rowInit1 s

/-- The divisor `3*(i/30) + 1` of the modulo in `init2` (main.cc line 82);
`/` is C integer division, which agrees with `Nat.div` for `i ≥ 0`. -/
def jmaxDivisor (i : ℕ) : ℕ :=
  3 * (i / 30) + 1

/-- Body of the first `init2` loop (main.cc lines 81-90): compute
`expr = i % (3*(i/30)+1)`, set `jmax[i]` to `N` if `expr == 0` else `1`, and
zero `c[i]`. -/
def stepInit2a (s : GState) (i : ℕ) : GState :=
  setC (setJmax s i (if i % jmaxDivisor i = 0 then N else 1)) i 0

/-- Body of the second `init2` loop (main.cc line 94):
`b[i][j] = (double)(i*j+1) / (double)(N*N)`. -/
def stepInit2b (i : ℕ) (s : GState) (j : ℕ) : GState :=
  setB s i j (((i * j + 1 : ℕ) : ℚ) / ((N : ℚ) * N))

/-- One row of the second `init2` loop. -/
def rowInit2b (s : GState) (i : ℕ) : GState :=
  (List.range N).foldl (stepInit2b i) s

/-- Embedding of `init2` (main.cc lines 78-97): the `jmax`/`c` loop followed
by the `b` loop. -/
def init2 (s : GState) : GState :=
  (List.range N).foldl rowInit2b ((List.range N).foldl stepInit2a s)

/-- The checksum computed by `valid1` (main.cc lines 99-110): the running sum
`suma` over all of `a`, translated as the same left-folded accumulation. -/
def valid1sum (s : GState) : ℚ :=
  (List.range N).foldl (fun acc i => (List.range N).foldl (fun acc2 j => acc2 + s.a i j) acc) 0

/-- The checksum computed by `valid2` (main.cc lines 113-122): the running sum
`sumc` over all of `c`. -/
def valid2sum (s : GState) : ℚ :=
  (List.range N).foldl (fun acc i => acc + s.c i) 0

/-- A sequence of chunk calls to Kernel A: `loop1chunk` on each `(lo, hi)`
pair in turn, modelling an arbitrary partition of the outer range into
sub-ranges handed out by a scheduler. -/
def runChunksA (cosf : ℚ → ℚ) (chunks : List (ℕ × ℕ)) (s : GState) : GState :=
  chunks.foldl (fun t p => loop1chunk cosf p.1 p.2 t) s

/-- A sequence of chunk calls to Kernel B. -/
def runChunksB (logf : ℚ → ℚ) (chunks : List (ℕ × ℕ)) (s : GState) : GState :=
  chunks.foldl (fun t p => loop2chunk logf p.1 p.2 t) s

/-- The multiset of outer indices visited by a list of chunks, in visit
order. -/
def chunkIndices (chunks : List (ℕ × ℕ)) : List ℕ :=
  (chunks.map (fun p => List.range' p.1 (p.2 - p.1))).flatten

/-- The per-row total accumulated into `c[i]` by one `loop2chunk` call
processing row `i`, read off from the loop structure of main.cc lines
38-42. -/
def rowBsum (logf : ℚ → ℚ) (s : GState) (i : ℕ) : ℚ :=
  ∑ j ∈ Finset.range (s.jmax i), ∑ k ∈ Finset.range j,
    ((k : ℚ) + 1) * logf (s.b i j) * rN2

/-- The `jmax` shape formula of the spec: `N` when `i mod (3*(i/30)+1) == 0`,
else `1`. -/
def jmaxSpec (i : ℕ) : ℕ :=
  if i % jmaxDivisor i = 0 then N else 1

/-! Generic helpers -/

/-- A left fold preserves any state component that every step preserves. -/
lemma foldl_pres {α β : Type _} (f : GState → α → GState) (g : GState → β)
    (hf : ∀ s x, g (f s x) = g s) :
    ∀ (L : List α) (s : GState), g (L.foldl f s) = g s := by
  intro L
  induction L with
  | nil => intro s; rfl
  | cons x T ih => intro s; rw [List.foldl_cons, ih, hf]

/-- A left-folded running sum is the initial accumulator plus the list sum. -/
lemma foldl_add_eq {α : Type _} (f : α → ℚ) :
    ∀ (L : List α) (acc : ℚ), L.foldl (fun a x => a + f x) acc = acc + (L.map f).sum := by
  intro L
  induction L with
  | nil => intro acc; simp
  | cons x T ih => intro acc; simp [List.foldl_cons, ih, add_assoc]

/-- The sum of `f` over `List.range n` is the `Finset.range` sum. -/
lemma list_range_map_sum (f : ℕ → ℚ) :
    ∀ n : ℕ, ((List.range n).map f).sum = ∑ i ∈ Finset.range n, f i := by
  intro n
  induction n with
  | zero => simp
  | succ n ih => simp [List.range_succ, Finset.sum_range_succ, ih]

@[simp] lemma setA_a (s : GState) (i j v i2 j2) :
    (setA s i j v).a i2 j2 = if i2 = i ∧ j2 = j then v else s.a i2 j2 := rfl

@[simp] lemma setA_b (s : GState) (i j v) : (setA s i j v).b = s.b := rfl

@[simp] lemma setA_c (s : GState) (i j v) : (setA s i j v).c = s.c := rfl

@[simp] lemma setA_jmax (s : GState) (i j v) : (setA s i j v).jmax = s.jmax := rfl

@[simp] lemma setB_b (s : GState) (i j v i2 j2) :
    (setB s i j v).b i2 j2 = if i2 = i ∧ j2 = j then v else s.b i2 j2 := rfl

@[simp] lemma setB_a (s : GState) (i j v) : (setB s i j v).a = s.a := rfl

@[simp] lemma setB_c (s : GState) (i j v) : (setB s i j v).c = s.c := rfl

@[simp] lemma setB_jmax (s : GState) (i j v) : (setB s i j v).jmax = s.jmax := rfl

@[simp] lemma setC_c (s : GState) (i v i2) :
    (setC s i v).c i2 = if i2 = i then v else s.c i2 := rfl

@[simp] lemma setC_a (s : GState) (i v) : (setC s i v).a = s.a := rfl

@[simp] lemma setC_b (s : GState) (i v) : (setC s i v).b = s.b := rfl

@[simp] lemma setC_jmax (s : GState) (i v) : (setC s i v).jmax = s.jmax := rfl

@[simp] lemma setJmax_jmax (s : GState) (i v i2) :
    (setJmax s i v).jmax i2 = if i2 = i then v else s.jmax i2 := rfl

@[simp] lemma setJmax_a (s : GState) (i v) : (setJmax s i v).a = s.a := rfl

@[simp] lemma setJmax_b (s : GState) (i v) : (setJmax s i v).b = s.b := rfl

@[simp] lemma setJmax_c (s : GState) (i v) : (setJmax s i v).c = s.c := rfl

/-! Kernel A characterization -/

lemma foldl_stepA_b (cosf : ℚ → ℚ) (i : ℕ) (L : List ℕ) (s : GState) :
    (L.foldl (stepA cosf i) s).b = s.b :=
  foldl_pres (stepA cosf i) GState.b (fun _ _ => rfl) L s

lemma foldl_stepA_c (cosf : ℚ → ℚ) (i : ℕ) (L : List ℕ) (s : GState) :
    (L.foldl (stepA cosf i) s).c = s.c :=
  foldl_pres (stepA cosf i) GState.c (fun _ _ => rfl) L s

lemma foldl_stepA_jmax (cosf : ℚ → ℚ) (i : ℕ) (L : List ℕ) (s : GState) :
    (L.foldl (stepA cosf i) s).jmax = s.jmax :=
  foldl_pres (stepA cosf i) GState.jmax (fun _ _ => rfl) L s

/-- Folding the Kernel A cell update over a duplicate-free list of inner
indices adds `cosf (b i j)` to `a i j` exactly at the visited cells. -/
lemma foldl_stepA_a (cosf : ℚ → ℚ) (i : ℕ) :
    ∀ (L : List ℕ), L.Nodup → ∀ (s : GState) (i2 j2 : ℕ),
      (L.foldl (stepA cosf i) s).a i2 j2 =
        if i2 = i ∧ j2 ∈ L then s.a i2 j2 + cosf (s.b i2 j2) else s.a i2 j2 := by
  intro L
  induction L with
  | nil => intro _ s i2 j2; simp
  | cons x T ih =>
      intro hnd s i2 j2
      obtain ⟨hxT, hT⟩ := List.nodup_cons.mp hnd
      rw [List.foldl_cons, ih hT]
      by_cases h1 : i2 = i
      · subst h1
        by_cases h2 : j2 ∈ T
        · have hx : j2 ≠ x := by rintro rfl; exact hxT h2
          simp [stepA, h2, hx]
        · by_cases h3 : j2 = x
          · subst h3
            simp [stepA, h2]
          · simp [stepA, h2, h3]
      · simp [stepA, h1]

/-- The inner index values visited by row `i` of Kernel A are exactly the `j`
with `i < j < N`. -/
lemma mem_rowA_range (i j : ℕ) :
    j ∈ (List.range' (i + 1) (N - 1 - i)).reverse ↔ i < j ∧ j < N := by
  rw [List.mem_reverse, List.mem_range'_1]
  omega

lemma rowA_a (cosf : ℚ → ℚ) (s : GState) (i i2 j2 : ℕ) :
    (rowA cosf s i).a i2 j2 =
      if i2 = i ∧ i < j2 ∧ j2 < N then s.a i2 j2 + cosf (s.b i2 j2) else s.a i2 j2 := by
  rw [rowA, foldl_stepA_a cosf i _ (List.nodup_reverse.mpr (List.nodup_range' _ _))]
  by_cases h1 : i2 = i
  · subst h1
    by_cases h2 : i2 < j2 ∧ j2 < N
    · simp [(mem_rowA_range i2 j2).mpr h2, h2]
    · have : j2 ∉ (List.range' (i2 + 1) (N - 1 - i2)).reverse := fun hm =>
        h2 ((mem_rowA_range i2 j2).mp hm)
      simp [this, h2]
  · simp [h1]

lemma rowA_b (cosf : ℚ → ℚ) (s : GState) (i : ℕ) : (rowA cosf s i).b = s.b :=
  foldl_stepA_b _ _ _ _

lemma rowA_c (cosf : ℚ → ℚ) (s : GState) (i : ℕ) : (rowA cosf s i).c = s.c :=
  foldl_stepA_c _ _ _ _

lemma rowA_jmax (cosf : ℚ → ℚ) (s : GState) (i : ℕ) : (rowA cosf s i).jmax = s.jmax :=
  foldl_stepA_jmax _ _ _ _

lemma foldl_rowA_b (cosf : ℚ → ℚ) (L : List ℕ) (s : GState) :
    (L.foldl (rowA cosf) s).b = s.b :=
  foldl_pres (rowA cosf) GState.b (fun t i => rowA_b cosf t i) L s

lemma foldl_rowA_c (cosf : ℚ → ℚ) (L : List ℕ) (s : GState) :
    (L.foldl (rowA cosf) s).c = s.c :=
  foldl_pres (rowA cosf) GState.c (fun t i => rowA_c cosf t i) L s

lemma foldl_rowA_jmax (cosf : ℚ → ℚ) (L : List ℕ) (s : GState) :
    (L.foldl (rowA cosf) s).jmax = s.jmax :=
  foldl_pres (rowA cosf) GState.jmax (fun t i => rowA_jmax cosf t i) L s

/-- Folding the Kernel A row update over a duplicate-free list of outer
indices adds `cosf (b i j)` to `a i j` exactly once for each visited row `i`
and each `j` with `i < j < N`. -/
lemma foldl_rowA_a (cosf : ℚ → ℚ) :
    ∀ (L : List ℕ), L.Nodup → ∀ (s : GState) (i2 j2 : ℕ),
      (L.foldl (rowA cosf) s).a i2 j2 =
        if i2 ∈ L ∧ i2 < j2 ∧ j2 < N then s.a i2 j2 + cosf (s.b i2 j2) else s.a i2 j2 := by
  intro L
  induction L with
  | nil => intro _ s i2 j2; simp
  | cons x T ih =>
      intro hnd s i2 j2
      obtain ⟨hxT, hT⟩ := List.nodup_cons.mp hnd
      rw [List.foldl_cons, ih hT, rowA_b, rowA_a]
      by_cases h2 : i2 ∈ T
      · have hx : i2 ≠ x := by rintro rfl; exact hxT h2
        simp [h2, hx]
      · by_cases h3 : i2 = x
        · subst h3
          by_cases h4 : i2 < j2 ∧ j2 < N
          · simp [h2, h4]
          · simp [h2, h4]
        · simp [h2, h3]

/-- The final `a` after `loop1chunk lo hi`, cell by cell. -/
lemma loop1chunk_a (cosf : ℚ → ℚ) (lo hi : ℕ) (s : GState) (i j : ℕ) :
    (loop1chunk cosf lo hi s).a i j =
      if lo ≤ i ∧ i < lo + (hi - lo) ∧ i < j ∧ j < N
      then s.a i j + cosf (s.b i j) else s.a i j := by
  rw [loop1chunk, foldl_rowA_a cosf _ (List.nodup_range' _ _)]
  by_cases hm : i ∈ List.range' lo (hi - lo)
  · rw [List.mem_range'_1] at hm
    by_cases h4 : i < j ∧ j < N
    · simp [hm, h4]
    · simp [h4]
  · rw [List.mem_range'_1] at hm
    have : ¬(lo ≤ i ∧ i < lo + (hi - lo) ∧ i < j ∧ j < N) := by tauto
    simp [this]
    intro h5 h6
    exact absurd ⟨h5, h6⟩ hm

lemma loop1chunk_b (cosf : ℚ → ℚ) (lo hi : ℕ) (s : GState) :
    (loop1chunk cosf lo hi s).b = s.b := foldl_rowA_b _ _ _

lemma loop1chunk_c (cosf : ℚ → ℚ) (lo hi : ℕ) (s : GState) :
    (loop1chunk cosf lo hi s).c = s.c := foldl_rowA_c _ _ _

lemma loop1chunk_jmax (cosf : ℚ → ℚ) (lo hi : ℕ) (s : GState) :
    (loop1chunk cosf lo hi s).jmax = s.jmax := foldl_rowA_jmax _ _ _

/-- Iterating `loop1chunk lo hi` accumulates each covered cell once per
call. -/
lemma loop1chunk_iter_a (cosf : ℚ → ℚ) (lo hi : ℕ) (s : GState) :
    ∀ (n : ℕ) (i j : ℕ),
      ((loop1chunk cosf lo hi)^[n] s).a i j =
        if lo ≤ i ∧ i < lo + (hi - lo) ∧ i < j ∧ j < N
        then s.a i j + n * cosf (s.b i j) else s.a i j := by
  intro n
  induction n with
  | zero => intro i j; by_cases h : lo ≤ i ∧ i < lo + (hi - lo) ∧ i < j ∧ j < N <;> simp [h]
  | succ n ih =>
      intro i j
      rw [Function.iterate_succ_apply', loop1chunk_a]
      have hb : ((loop1chunk cosf lo hi)^[n] s).b = s.b := by
        clear ih
        induction n with
        | zero => rfl
        | succ m ihm => rw [Function.iterate_succ_apply', loop1chunk_b, ihm]
      by_cases h : lo ≤ i ∧ i < lo + (hi - lo) ∧ i < j ∧ j < N
      · rw [if_pos h, ih, if_pos h, hb, if_pos h]
        push_cast
        ring
      · rw [if_neg h, ih, if_neg h, if_neg h]

/-! Kernel B characterization -/

lemma foldl_stepB_a (logf : ℚ → ℚ) (i j : ℕ) (L : List ℕ) (s : GState) :
    (L.foldl (stepB logf i j) s).a = s.a :=
  foldl_pres (stepB logf i j) GState.a (fun _ _ => rfl) L s

lemma foldl_stepB_b (logf : ℚ → ℚ) (i j : ℕ) (L : List ℕ) (s : GState) :
    (L.foldl (stepB logf i j) s).b = s.b :=
  foldl_pres (stepB logf i j) GState.b (fun _ _ => rfl) L s

lemma foldl_stepB_jmax (logf : ℚ → ℚ) (i j : ℕ) (L : List ℕ) (s : GState) :
    (L.foldl (stepB logf i j) s).jmax = s.jmax :=
  foldl_pres (stepB logf i j) GState.jmax (fun _ _ => rfl) L s

/-- Folding the Kernel B innermost update over a list of `k` values adds the
corresponding list sum to `c i` and touches no other slot of `c`. -/
lemma foldl_stepB_c (logf : ℚ → ℚ) (i j : ℕ) :
    ∀ (L : List ℕ) (s : GState) (i2 : ℕ),
      (L.foldl (stepB logf i j) s).c i2 =
        if i2 = i
        then s.c i2 + (L.map (fun (k : ℕ) => ((k : ℚ) + 1) * logf (s.b i j) * rN2)).sum
        else s.c i2 := by
  intro L
  induction L with
  | nil => intro s i2; by_cases h : i2 = i <;> simp [h]
  | cons x T ih =>
      intro s i2
      rw [List.foldl_cons, ih]
      by_cases h : i2 = i
      · subst h
        simp [stepB, add_assoc]
      · simp [stepB, h]

lemma rowBj_c (logf : ℚ → ℚ) (i : ℕ) (s : GState) (j i2 : ℕ) :
    (rowBj logf i s j).c i2 =
      if i2 = i
      then s.c i2 + ∑ k ∈ Finset.range j, ((k : ℚ) + 1) * logf (s.b i j) * rN2
      else s.c i2 := by
  rw [rowBj, foldl_stepB_c, list_range_map_sum]

lemma rowBj_a (logf : ℚ → ℚ) (i : ℕ) (s : GState) (j : ℕ) :
    (rowBj logf i s j).a = s.a := foldl_stepB_a _ _ _ _ _

lemma rowBj_b (logf : ℚ → ℚ) (i : ℕ) (s : GState) (j : ℕ) :
    (rowBj logf i s j).b = s.b := foldl_stepB_b _ _ _ _ _

lemma rowBj_jmax (logf : ℚ → ℚ) (i : ℕ) (s : GState) (j : ℕ) :
    (rowBj logf i s j).jmax = s.jmax := foldl_stepB_jmax _ _ _ _ _

/-- Folding the Kernel B `j`-loop body over a list of `j` values adds the
double sum to `c i` and touches no other slot of `c`. -/
lemma foldl_rowBj_c (logf : ℚ → ℚ) (i : ℕ) :
    ∀ (L : List ℕ) (s : GState) (i2 : ℕ),
      (L.foldl (rowBj logf i) s).c i2 =
        if i2 = i
        then s.c i2 +
          (L.map (fun j => ∑ k ∈ Finset.range j, ((k : ℚ) + 1) * logf (s.b i j) * rN2)).sum
        else s.c i2 := by
  intro L
  induction L with
  | nil => intro s i2; by_cases h : i2 = i <;> simp [h]
  | cons x T ih =>
      intro s i2
      rw [List.foldl_cons, ih]
      by_cases h : i2 = i
      · subst h
        rw [if_pos rfl, if_pos rfl, rowBj_c, if_pos rfl, rowBj_b]
        simp [add_assoc]
      · rw [if_neg h, if_neg h, rowBj_c, if_neg h]

lemma rowB_c (logf : ℚ → ℚ) (s : GState) (i i2 : ℕ) :
    (rowB logf s i).c i2 =
      if i2 = i then s.c i2 + rowBsum logf s i2 else s.c i2 := by
  rw [rowB, foldl_rowBj_c, list_range_map_sum]
  by_cases h : i2 = i
  · subst h
    rw [if_pos rfl, if_pos rfl, rowBsum]
  · rw [if_neg h, if_neg h]

lemma rowB_a (logf : ℚ → ℚ) (s : GState) (i : ℕ) : (rowB logf s i).a = s.a :=
  foldl_pres (rowBj logf i) GState.a (fun t j => rowBj_a logf i t j) _ _

lemma rowB_b (logf : ℚ → ℚ) (s : GState) (i : ℕ) : (rowB logf s i).b = s.b :=
  foldl_pres (rowBj logf i) GState.b (fun t j => rowBj_b logf i t j) _ _

lemma rowB_jmax (logf : ℚ → ℚ) (s : GState) (i : ℕ) : (rowB logf s i).jmax = s.jmax :=
  foldl_pres (rowBj logf i) GState.jmax (fun t j => rowBj_jmax logf i t j) _ _

/-- The per-row sum only looks at the `b` and `jmax` components. -/
lemma rowBsum_congr (logf : ℚ → ℚ) {s t : GState} (hb : t.b = s.b)
    (hj : t.jmax = s.jmax) (i : ℕ) : rowBsum logf t i = rowBsum logf s i := by
  rw [rowBsum, rowBsum, hb, hj]

lemma foldl_rowB_a (logf : ℚ → ℚ) (L : List ℕ) (s : GState) :
    (L.foldl (rowB logf) s).a = s.a :=
  foldl_pres (rowB logf) GState.a (fun t i => rowB_a logf t i) L s

lemma foldl_rowB_b (logf : ℚ → ℚ) (L : List ℕ) (s : GState) :
    (L.foldl (rowB logf) s).b = s.b :=
  foldl_pres (rowB logf) GState.b (fun t i => rowB_b logf t i) L s

lemma foldl_rowB_jmax (logf : ℚ → ℚ) (L : List ℕ) (s : GState) :
    (L.foldl (rowB logf) s).jmax = s.jmax :=
  foldl_pres (rowB logf) GState.jmax (fun t i => rowB_jmax logf t i) L s

/-- Folding the Kernel B row update over a duplicate-free list of outer
indices adds `rowBsum` to `c i` exactly once for each visited row `i`. -/
lemma foldl_rowB_c (logf : ℚ → ℚ) :
    ∀ (L : List ℕ), L.Nodup → ∀ (s : GState) (i2 : ℕ),
      (L.foldl (rowB logf) s).c i2 =
        if i2 ∈ L then s.c i2 + rowBsum logf s i2 else s.c i2 := by
  intro L
  induction L with
  | nil => intro _ s i2; simp
  | cons x T ih =>
      intro hnd s i2
      obtain ⟨hxT, hT⟩ := List.nodup_cons.mp hnd
      rw [List.foldl_cons, ih hT, rowB_c]
      have hsum : rowBsum logf (rowB logf s x) i2 = rowBsum logf s i2 :=
        rowBsum_congr logf (rowB_b logf s x) (rowB_jmax logf s x) i2
      by_cases h2 : i2 ∈ T
      · have hx : i2 ≠ x := by rintro rfl; exact hxT h2
        simp [h2, hx, hsum]
      · by_cases h3 : i2 = x
        · subst h3
          simp [h2]
        · simp [h2, h3]

/-- The final `c` after `loop2chunk lo hi`, slot by slot. -/
lemma loop2chunk_c (logf : ℚ → ℚ) (lo hi : ℕ) (s : GState) (i : ℕ) :
    (loop2chunk logf lo hi s).c i =
      if lo ≤ i ∧ i < lo + (hi - lo) then s.c i + rowBsum logf s i else s.c i := by
  rw [loop2chunk, foldl_rowB_c logf _ (List.nodup_range' _ _)]
  by_cases hm : i ∈ List.range' lo (hi - lo)
  · have := List.mem_range'_1.mp hm
    simp [hm, this]
  · rw [List.mem_range'_1] at hm
    simp [hm]

lemma loop2chunk_a (logf : ℚ → ℚ) (lo hi : ℕ) (s : GState) :
    (loop2chunk logf lo hi s).a = s.a := foldl_rowB_a _ _ _

lemma loop2chunk_b (logf : ℚ → ℚ) (lo hi : ℕ) (s : GState) :
    (loop2chunk logf lo hi s).b = s.b := foldl_rowB_b _ _ _

lemma loop2chunk_jmax (logf : ℚ → ℚ) (lo hi : ℕ) (s : GState) :
    (loop2chunk logf lo hi s).jmax = s.jmax := foldl_rowB_jmax _ _ _

lemma loop2chunk_iter_b (logf : ℚ → ℚ) (lo hi : ℕ) (s : GState) (n : ℕ) :
    ((loop2chunk logf lo hi)^[n] s).b = s.b := by
  induction n with
  | zero => rfl
  | succ m ihm => rw [Function.iterate_succ_apply', loop2chunk_b, ihm]

lemma loop2chunk_iter_jmax (logf : ℚ → ℚ) (lo hi : ℕ) (s : GState) (n : ℕ) :
    ((loop2chunk logf lo hi)^[n] s).jmax = s.jmax := by
  induction n with
  | zero => rfl
  | succ m ihm => rw [Function.iterate_succ_apply', loop2chunk_jmax, ihm]

/-- Iterating `loop2chunk lo hi` accumulates `rowBsum` into each covered slot
of `c` once per call. -/
lemma loop2chunk_iter_c (logf : ℚ → ℚ) (lo hi : ℕ) (s : GState) :
    ∀ (n : ℕ) (i : ℕ),
      ((loop2chunk logf lo hi)^[n] s).c i =
        if lo ≤ i ∧ i < lo + (hi - lo)
        then s.c i + n * rowBsum logf s i else s.c i := by
  intro n
  induction n with
  | zero => intro i; by_cases h : lo ≤ i ∧ i < lo + (hi - lo) <;> simp [h]
  | succ n ih =>
      intro i
      rw [Function.iterate_succ_apply', loop2chunk_c]
      have hsum : rowBsum logf ((loop2chunk logf lo hi)^[n] s) i = rowBsum logf s i :=
        rowBsum_congr logf (loop2chunk_iter_b logf lo hi s n)
          (loop2chunk_iter_jmax logf lo hi s n) i
      by_cases h : lo ≤ i ∧ i < lo + (hi - lo)
      · rw [if_pos h, ih, if_pos h, hsum, if_pos h]
        push_cast
        ring
      · rw [if_neg h, ih, if_neg h, if_neg h]

/-! Initialization characterization -/

lemma stepInit1_a (i : ℕ) (s : GState) (j i2 j2 : ℕ) :
    (stepInit1 i s j).a i2 j2 = if i2 = i ∧ j2 = j then 0 else s.a i2 j2 := rfl

lemma stepInit1_b (i : ℕ) (s : GState) (j i2 j2 : ℕ) :
    (stepInit1 i s j).b i2 j2 =
      if i2 = i ∧ j2 = j then (3.142 : ℚ) * ((i : ℚ) + (j : ℚ)) else s.b i2 j2 := rfl

/-- Each `init1` cell write stores a value determined by the cell's own
indices, so the fold is characterized by membership alone. -/
lemma foldl_stepInit1_a (i : ℕ) :
    ∀ (L : List ℕ) (s : GState) (i2 j2 : ℕ),
      (L.foldl (stepInit1 i) s).a i2 j2 = if i2 = i ∧ j2 ∈ L then 0 else s.a i2 j2 := by
  intro L
  induction L with
  | nil => intro s i2 j2; simp
  | cons x T ih =>
      intro s i2 j2
      rw [List.foldl_cons, ih, stepInit1_a]
      by_cases h1 : i2 = i
      · subst h1
        by_cases h2 : j2 ∈ T
        · simp [h2]
        · by_cases h3 : j2 = x
          · subst h3; simp [h2]
          · simp [h2, h3]
      · simp [h1]

lemma foldl_stepInit1_b (i : ℕ) :
    ∀ (L : List ℕ) (s : GState) (i2 j2 : ℕ),
      (L.foldl (stepInit1 i) s).b i2 j2 =
        if i2 = i ∧ j2 ∈ L then (3.142 : ℚ) * ((i : ℚ) + (j2 : ℚ)) else s.b i2 j2 := by
  intro L
  induction L with
  | nil => intro s i2 j2; simp
  | cons x T ih =>
      intro s i2 j2
      rw [List.foldl_cons, ih, stepInit1_b]
      by_cases h1 : i2 = i
      · subst h1
        by_cases h2 : j2 ∈ T
        · simp [h2]
        · by_cases h3 : j2 = x
          · subst h3; simp [h2]
          · simp [h2, h3]
      · simp [h1]

lemma rowInit1_a (s : GState) (i i2 j2 : ℕ) :
    (rowInit1 s i).a i2 j2 = if i2 = i ∧ j2 < N then 0 else s.a i2 j2 := by
  rw [rowInit1, foldl_stepInit1_a]
  simp [List.mem_range]

lemma rowInit1_b (s : GState) (i i2 j2 : ℕ) :
    (rowInit1 s i).b i2 j2 =
      if i2 = i ∧ j2 < N then (3.142 : ℚ) * ((i : ℚ) + (j2 : ℚ)) else s.b i2 j2 := by
  rw [rowInit1, foldl_stepInit1_b]
  simp [List.mem_range]

lemma rowInit1_c (s : GState) (i : ℕ) : (rowInit1 s i).c = s.c :=
  foldl_pres (stepInit1 i) GState.c (fun _ _ => rfl) _ _

lemma rowInit1_jmax (s : GState) (i : ℕ) : (rowInit1 s i).jmax = s.jmax :=
  foldl_pres (stepInit1 i) GState.jmax (fun _ _ => rfl) _ _

lemma foldl_rowInit1_a :
    ∀ (L : List ℕ) (s : GState) (i2 j2 : ℕ),
      (L.foldl rowInit1 s).a i2 j2 = if i2 ∈ L ∧ j2 < N then 0 else s.a i2 j2 := by
  intro L
  induction L with
  | nil => intro s i2 j2; simp
  | cons x T ih =>
      intro s i2 j2
      rw [List.foldl_cons, ih, rowInit1_a]
      by_cases h2 : i2 ∈ T
      · by_cases h4 : j2 < N <;> simp [h2, h4]
      · by_cases h3 : i2 = x
        · subst h3; simp [h2]
        · simp [h2, h3]

lemma foldl_rowInit1_b :
    ∀ (L : List ℕ) (s : GState) (i2 j2 : ℕ),
      (L.foldl rowInit1 s).b i2 j2 =
        if i2 ∈ L ∧ j2 < N then (3.142 : ℚ) * ((i2 : ℚ) + (j2 : ℚ)) else s.b i2 j2 := by
  intro L
  induction L with
  | nil => intro s i2 j2; simp
  | cons x T ih =>
      intro s i2 j2
      rw [List.foldl_cons, ih, rowInit1_b]
      by_cases h2 : i2 ∈ T
      · by_cases h4 : j2 < N <;> simp [h2, h4]
      · by_cases h3 : i2 = x
        · subst h3; simp [h2]
        · simp [h2, h3]

/-- The final `a` after `init1`: zero on the `N × N` block. -/
lemma init1_a (s : GState) (i j : ℕ) :
    (init1 s).a i j = if i < N ∧ j < N then 0 else s.a i j := by
  rw [init1, foldl_rowInit1_a]
  simp [List.mem_range]

/-- The final `b` after `init1`: `3.142 * (i + j)` on the `N × N` block. -/
lemma init1_b (s : GState) (i j : ℕ) :
    (init1 s).b i j =
      if i < N ∧ j < N then (3.142 : ℚ) * ((i : ℚ) + (j : ℚ)) else s.b i j := by
  rw [init1, foldl_rowInit1_b]
  simp [List.mem_range]

lemma init1_c (s : GState) : (init1 s).c = s.c :=
  foldl_pres rowInit1 GState.c (fun t i => rowInit1_c t i) _ _

lemma init1_jmax (s : GState) : (init1 s).jmax = s.jmax :=
  foldl_pres rowInit1 GState.jmax (fun t i => rowInit1_jmax t i) _ _

lemma stepInit2a_jmax (s : GState) (i i2 : ℕ) :
    (stepInit2a s i).jmax i2 = if i2 = i then jmaxSpec i else s.jmax i2 := rfl

lemma stepInit2a_c (s : GState) (i i2 : ℕ) :
    (stepInit2a s i).c i2 = if i2 = i then 0 else s.c i2 := rfl

lemma foldl_stepInit2a_jmax :
    ∀ (L : List ℕ) (s : GState) (i2 : ℕ),
      (L.foldl stepInit2a s).jmax i2 = if i2 ∈ L then jmaxSpec i2 else s.jmax i2 := by
  intro L
  induction L with
  | nil => intro s i2; simp
  | cons x T ih =>
      intro s i2
      rw [List.foldl_cons, ih, stepInit2a_jmax]
      by_cases h2 : i2 ∈ T
      · simp [h2]
      · by_cases h3 : i2 = x
        · subst h3; simp [h2]
        · simp [h2, h3]

lemma foldl_stepInit2a_c :
    ∀ (L : List ℕ) (s : GState) (i2 : ℕ),
      (L.foldl stepInit2a s).c i2 = if i2 ∈ L then 0 else s.c i2 := by
  intro L
  induction L with
  | nil => intro s i2; simp
  | cons x T ih =>
      intro s i2
      rw [List.foldl_cons, ih, stepInit2a_c]
      by_cases h2 : i2 ∈ T
      · simp [h2]
      · by_cases h3 : i2 = x
        · subst h3; simp [h2]
        · simp [h2, h3]

lemma foldl_stepInit2a_a (L : List ℕ) (s : GState) :
    (L.foldl stepInit2a s).a = s.a :=
  foldl_pres stepInit2a GState.a (fun _ _ => rfl) L s

lemma foldl_stepInit2a_b (L : List ℕ) (s : GState) :
    (L.foldl stepInit2a s).b = s.b :=
  foldl_pres stepInit2a GState.b (fun _ _ => rfl) L s

lemma stepInit2b_b (i : ℕ) (s : GState) (j i2 j2 : ℕ) :
    (stepInit2b i s j).b i2 j2 =
      if i2 = i ∧ j2 = j then ((i * j + 1 : ℕ) : ℚ) / ((N : ℚ) * N) else s.b i2 j2 := rfl

lemma foldl_stepInit2b_b (i : ℕ) :
    ∀ (L : List ℕ) (s : GState) (i2 j2 : ℕ),
      (L.foldl (stepInit2b i) s).b i2 j2 =
        if i2 = i ∧ j2 ∈ L then ((i * j2 + 1 : ℕ) : ℚ) / ((N : ℚ) * N) else s.b i2 j2 := by
  intro L
  induction L with
  | nil => intro s i2 j2; simp
  | cons x T ih =>
      intro s i2 j2
      rw [List.foldl_cons, ih, stepInit2b_b]
      by_cases h1 : i2 = i
      · subst h1
        by_cases h2 : j2 ∈ T
        · simp [h2]
        · by_cases h3 : j2 = x
          · subst h3; simp [h2]
          · simp [h2, h3]
      · simp [h1]

lemma rowInit2b_b (s : GState) (i i2 j2 : ℕ) :
    (rowInit2b s i).b i2 j2 =
      if i2 = i ∧ j2 < N then ((i * j2 + 1 : ℕ) : ℚ) / ((N : ℚ) * N) else s.b i2 j2 := by
  rw [rowInit2b, foldl_stepInit2b_b]
  simp [List.mem_range]

lemma rowInit2b_a (s : GState) (i : ℕ) : (rowInit2b s i).a = s.a :=
  foldl_pres (stepInit2b i) GState.a (fun _ _ => rfl) _ _

lemma rowInit2b_c (s : GState) (i : ℕ) : (rowInit2b s i).c = s.c :=
  foldl_pres (stepInit2b i) GState.c (fun _ _ => rfl) _ _

lemma rowInit2b_jmax (s : GState) (i : ℕ) : (rowInit2b s i).jmax = s.jmax :=
  foldl_pres (stepInit2b i) GState.jmax (fun _ _ => rfl) _ _

lemma foldl_rowInit2b_b :
    ∀ (L : List ℕ) (s : GState) (i2 j2 : ℕ),
      (L.foldl rowInit2b s).b i2 j2 =
        if i2 ∈ L ∧ j2 < N then ((i2 * j2 + 1 : ℕ) : ℚ) / ((N : ℚ) * N) else s.b i2 j2 := by
  intro L
  induction L with
  | nil => intro s i2 j2; simp
  | cons x T ih =>
      intro s i2 j2
      rw [List.foldl_cons, ih, rowInit2b_b]
      by_cases h2 : i2 ∈ T
      · by_cases h4 : j2 < N <;> simp [h2, h4]
      · by_cases h3 : i2 = x
        · subst h3; simp [h2]
        · simp [h2, h3]

/-- The final `jmax` after `init2`: the modular shape formula on `[0, N)`. -/
lemma init2_jmax (s : GState) (i : ℕ) :
    (init2 s).jmax i = if i < N then jmaxSpec i else s.jmax i := by
  rw [init2]
  have h1 : ∀ t : GState, ((List.range N).foldl rowInit2b t).jmax = t.jmax :=
    fun t => foldl_pres rowInit2b GState.jmax (fun u i2 => rowInit2b_jmax u i2) _ t
  rw [h1, foldl_stepInit2a_jmax]
  simp [List.mem_range]

/-- The final `c` after `init2`: zero on `[0, N)`. -/
lemma init2_c (s : GState) (i : ℕ) :
    (init2 s).c i = if i < N then 0 else s.c i := by
  rw [init2]
  have h1 : ∀ t : GState, ((List.range N).foldl rowInit2b t).c = t.c :=
    fun t => foldl_pres rowInit2b GState.c (fun u i2 => rowInit2b_c u i2) _ t
  rw [h1, foldl_stepInit2a_c]
  simp [List.mem_range]

/-- The final `b` after `init2`: `(i*j+1)/N²` on the `N × N` block. -/
lemma init2_b (s : GState) (i j : ℕ) :
    (init2 s).b i j =
      if i < N ∧ j < N then ((i * j + 1 : ℕ) : ℚ) / ((N : ℚ) * N) else s.b i j := by
  rw [init2, foldl_rowInit2b_b]
  have h1 : ((List.range N).foldl stepInit2a s).b = s.b := foldl_stepInit2a_b _ _
  rw [h1]
  simp [List.mem_range]

lemma init2_a (s : GState) : (init2 s).a = s.a := by
  rw [init2]
  have h1 : ∀ t : GState, ((List.range N).foldl rowInit2b t).a = t.a :=
    fun t => foldl_pres rowInit2b GState.a (fun u i2 => rowInit2b_a u i2) _ t
  rw [h1, foldl_stepInit2a_a]

/-! Checksums and partition invariance -/

/-- The `valid1` running sum equals the double `Finset` sum over `a`. -/
lemma valid1sum_eq (s : GState) :
    valid1sum s = ∑ i ∈ Finset.range N, ∑ j ∈ Finset.range N, s.a i j := by
  rw [valid1sum]
  have h1 : (fun (acc : ℚ) (i : ℕ) => (List.range N).foldl (fun acc2 j => acc2 + s.a i j) acc)
      = fun (acc : ℚ) (i : ℕ) => acc + ∑ j ∈ Finset.range N, s.a i j := by
    funext acc i
    rw [foldl_add_eq, list_range_map_sum]
  rw [h1, foldl_add_eq, list_range_map_sum, zero_add]

/-- The `valid2` running sum equals the `Finset` sum over `c`. -/
lemma valid2sum_eq (s : GState) :
    valid2sum s = ∑ i ∈ Finset.range N, s.c i := by
  rw [valid2sum, foldl_add_eq, list_range_map_sum, zero_add]

/-- Processing a duplicate-free list of Kernel A rows is invariant under
reordering: the final state only depends on which rows are visited. -/
lemma foldl_rowA_perm (cosf : ℚ → ℚ) {L L2 : List ℕ} (hperm : L.Perm L2)
    (hnd : L.Nodup) (s : GState) :
    L.foldl (rowA cosf) s = L2.foldl (rowA cosf) s := by
  have hnd2 : L2.Nodup := hperm.nodup_iff.mp hnd
  have ha : (L.foldl (rowA cosf) s).a = (L2.foldl (rowA cosf) s).a := by
    funext i j
    rw [foldl_rowA_a cosf L hnd, foldl_rowA_a cosf L2 hnd2]
    by_cases hm : i ∈ L
    · simp [hm, hperm.mem_iff.mp hm]
    · have hm2 : i ∉ L2 := fun h2 => hm (hperm.mem_iff.mpr h2)
      simp [hm, hm2]
  have hb : (L.foldl (rowA cosf) s).b = (L2.foldl (rowA cosf) s).b := by
    rw [foldl_rowA_b, foldl_rowA_b]
  have hc : (L.foldl (rowA cosf) s).c = (L2.foldl (rowA cosf) s).c := by
    rw [foldl_rowA_c, foldl_rowA_c]
  have hj : (L.foldl (rowA cosf) s).jmax = (L2.foldl (rowA cosf) s).jmax := by
    rw [foldl_rowA_jmax, foldl_rowA_jmax]
  exact GState.ext ha hb hc hj

/-- Processing a duplicate-free list of Kernel B rows is invariant under
reordering. -/
lemma foldl_rowB_perm (logf : ℚ → ℚ) {L L2 : List ℕ} (hperm : L.Perm L2)
    (hnd : L.Nodup) (s : GState) :
    L.foldl (rowB logf) s = L2.foldl (rowB logf) s := by
  have hnd2 : L2.Nodup := hperm.nodup_iff.mp hnd
  have hc : (L.foldl (rowB logf) s).c = (L2.foldl (rowB logf) s).c := by
    funext i
    rw [foldl_rowB_c logf L hnd, foldl_rowB_c logf L2 hnd2]
    by_cases hm : i ∈ L
    · simp [hm, hperm.mem_iff.mp hm]
    · have hm2 : i ∉ L2 := fun h2 => hm (hperm.mem_iff.mpr h2)
      simp [hm, hm2]
  have ha : (L.foldl (rowB logf) s).a = (L2.foldl (rowB logf) s).a := by
    rw [foldl_rowB_a, foldl_rowB_a]
  have hb : (L.foldl (rowB logf) s).b = (L2.foldl (rowB logf) s).b := by
    rw [foldl_rowB_b, foldl_rowB_b]
  have hj : (L.foldl (rowB logf) s).jmax = (L2.foldl (rowB logf) s).jmax := by
    rw [foldl_rowB_jmax, foldl_rowB_jmax]
  exact GState.ext ha hb hc hj

/-- A sequence of Kernel A chunk calls equals one row fold over the
concatenated index lists. -/
lemma runChunksA_eq_rows (cosf : ℚ → ℚ) :
    ∀ (chunks : List (ℕ × ℕ)) (s : GState),
      runChunksA cosf chunks s = (chunkIndices chunks).foldl (rowA cosf) s := by
  intro chunks
  induction chunks with
  | nil => intro s; rfl
  | cons p T ih =>
      intro s
      rw [runChunksA, List.foldl_cons, chunkIndices, List.map_cons, List.flatten_cons,
        List.foldl_append]
      exact ih (loop1chunk cosf p.1 p.2 s)

/-- A sequence of Kernel B chunk calls equals one row fold over the
concatenated index lists. -/
lemma runChunksB_eq_rows (logf : ℚ → ℚ) :
    ∀ (chunks : List (ℕ × ℕ)) (s : GState),
      runChunksB logf chunks s = (chunkIndices chunks).foldl (rowB logf) s := by
  intro chunks
  induction chunks with
  | nil => intro s; rfl
  | cons p T ih =>
      intro s
      rw [runChunksB, List.foldl_cons, chunkIndices, List.map_cons, List.flatten_cons,
        List.foldl_append]
      exact ih (loop2chunk logf p.1 p.2 s)

/-- Chunked Kernel A execution agrees with the sequential in-order run when
the chunk index lists form a permutation of the full range. -/
lemma runChunksA_eq_loop1chunk (cosf : ℚ → ℚ) (chunks : List (ℕ × ℕ)) (lo hi : ℕ)
    (h : (chunkIndices chunks).Perm (List.range' lo (hi - lo))) (s : GState) :
    runChunksA cosf chunks s = loop1chunk cosf lo hi s := by
  rw [runChunksA_eq_rows, loop1chunk]
  exact foldl_rowA_perm cosf h (h.nodup_iff.mpr (List.nodup_range' _ _)) s

/-- Chunked Kernel B execution agrees with the sequential in-order run when
the chunk index lists form a permutation of the full range. -/
lemma runChunksB_eq_loop2chunk (logf : ℚ → ℚ) (chunks : List (ℕ × ℕ)) (lo hi : ℕ)
    (h : (chunkIndices chunks).Perm (List.range' lo (hi - lo))) (s : GState) :
    runChunksB logf chunks s = loop2chunk logf lo hi s := by
  rw [runChunksB_eq_rows, loop2chunk]
  exact foldl_rowB_perm logf h (h.nodup_iff.mpr (List.nodup_range' _ _)) s

/-- `jmaxSpec` never exceeds the matrix dimension. -/
lemma jmaxSpec_le (i : ℕ) : jmaxSpec i ≤ N := by
  rw [jmaxSpec]
  split
  · exact le_refl N
  · norm_num [N]

/-- An all-zero state, used to instantiate universally quantified theorems at
a concrete input. -/
def sMain : GState :=
  { a := fun _ _ => 0, b := fun _ _ => 0, c := fun _ => 0, jmax := fun _ => 0 }

/-! Claim theorems -/

/-- C1: Kernel A contract.  For `0 ≤ lo ≤ hi ≤ N`, `loop1chunk lo hi` adds
`cos (b i j)` to `a i j` exactly for the outer indices `i ∈ [lo, hi)` and the
inner indices `j` from `N-1` down to `i+1` inclusive, and changes no other
element of `a`. -/
theorem kernelA_contract (cosf : ℚ → ℚ) (lo hi : ℕ) (h1 : lo ≤ hi) (h2 : hi ≤ N)
    (s : GState) (i j : ℕ) :
    (loop1chunk cosf lo hi s).a i j =
      if lo ≤ i ∧ i < hi ∧ i + 1 ≤ j ∧ j ≤ N - 1
      then s.a i j + cosf (s.b i j) else s.a i j := by
  rw [loop1chunk_a]
  have hN : 0 < N := by norm_num [N]
  have hcond : (lo ≤ i ∧ i < lo + (hi - lo) ∧ i < j ∧ j < N) ↔
      (lo ≤ i ∧ i < hi ∧ i + 1 ≤ j ∧ j ≤ N - 1) := by
    omega
  rw [if_congr hcond rfl rfl]

/-- Witness for C1 at `lo = 0`, `hi = 3`, cell `(1, 2)` of the zero state. -/
theorem kernelA_contract_witness :
    (0 : ℕ) ≤ 3 ∧ (3 : ℕ) ≤ N ∧
      ((loop1chunk (fun x => x) 0 3 sMain).a 1 2 =
        if (0 : ℕ) ≤ 1 ∧ 1 < 3 ∧ 1 + 1 ≤ 2 ∧ 2 ≤ N - 1
        then sMain.a 1 2 + sMain.b 1 2 else sMain.a 1 2) :=
  ⟨by norm_num, by norm_num [N],
    kernelA_contract (fun x => x) 0 3 (by norm_num) (by norm_num [N]) sMain 1 2⟩

/-- C2: Kernel B contract.  For `0 ≤ lo ≤ hi ≤ N`, given `jmax` already
populated, `loop2chunk lo hi` adds to `c i`, for each `i ∈ [lo, hi)`, the
accumulation of `(k+1) * log (b i j) * (1/N²)` over `j ∈ [0, jmax i)` and
`k ∈ [0, j)`, and changes no other element of `c`. -/
theorem kernelB_contract (logf : ℚ → ℚ) (lo hi : ℕ) (h1 : lo ≤ hi) (h2 : hi ≤ N)
    (s : GState) (i : ℕ) :
    (loop2chunk logf lo hi s).c i =
      if lo ≤ i ∧ i < hi
      then s.c i + ∑ j ∈ Finset.range (s.jmax i), ∑ k ∈ Finset.range j,
        ((k : ℚ) + 1) * logf (s.b i j) * rN2
      else s.c i := by
  rw [loop2chunk_c]
  have hcond : (lo ≤ i ∧ i < lo + (hi - lo)) ↔ (lo ≤ i ∧ i < hi) := by omega
  rw [if_congr hcond rfl rfl]
  simp only [rowBsum]

/-- Witness for C2 at `lo = 0`, `hi = 2`, slot `1` of the zero state. -/
theorem kernelB_contract_witness :
    (0 : ℕ) ≤ 2 ∧ (2 : ℕ) ≤ N ∧
      ((loop2chunk (fun x => x) 0 2 sMain).c 1 =
        if (0 : ℕ) ≤ 1 ∧ 1 < 2
        then sMain.c 1 + ∑ j ∈ Finset.range (sMain.jmax 1), ∑ k ∈ Finset.range j,
          ((k : ℚ) + 1) * (sMain.b 1 j) * rN2
        else sMain.c 1) :=
  ⟨by norm_num, by norm_num [N],
    kernelB_contract (fun x => x) 0 2 (by norm_num) (by norm_num [N]) sMain 1⟩

/-- C3: jmax shape correctness.  After `init2` (with `N = 729`), every
`i < N` has `jmax i = N` exactly when `i mod (3*(i/30)+1) = 0`, and
`jmax i = 1` otherwise. -/
theorem jmaxShape (s : GState) (i : ℕ) (h : i < N) :
    (init2 s).jmax i = if i % (3 * (i / 30) + 1) = 0 then N else 1 := by
  rw [init2_jmax, if_pos h, jmaxSpec, jmaxDivisor]

/-- Witness for C3 at `i = 5`. -/
theorem jmaxShape_witness :
    (5 : ℕ) < N ∧
      ((init2 sMain).jmax 5 = if 5 % (3 * (5 / 30) + 1) = 0 then N else 1) :=
  ⟨by norm_num [N], jmaxShape sMain 5 (by norm_num [N])⟩

/-- C4: checksum invariance under partition.  If the outer indices visited by
a list of chunks form a permutation of `[lo, hi)`, then running Kernel A
(resp. Kernel B) over the chunks, in any order, produces the same final state
as the sequential in-order run; in particular after `n` repeated calls each
covered cell of `a` has been accumulated exactly `n` times, and the `c`
checksum agrees exactly across partitions. -/
theorem partitionInvariance (cosf logf : ℚ → ℚ) (chunks : List (ℕ × ℕ)) (lo hi : ℕ)
    (h : (chunkIndices chunks).Perm (List.range' lo (hi - lo))) :
    (∀ s, runChunksA cosf chunks s = loop1chunk cosf lo hi s) ∧
    (∀ s, runChunksB logf chunks s = loop2chunk logf lo hi s) ∧
    (∀ s n, (runChunksA cosf chunks)^[n] s = (loop1chunk cosf lo hi)^[n] s) ∧
    (∀ s n i j, lo ≤ i → i < hi → i < j → j < N →
      ((runChunksA cosf chunks)^[n] s).a i j = s.a i j + (n : ℚ) * cosf (s.b i j)) ∧
    (∀ s n, valid2sum ((runChunksB logf chunks)^[n] s) =
      valid2sum ((loop2chunk logf lo hi)^[n] s)) := by
  have hA : ∀ s, runChunksA cosf chunks s = loop1chunk cosf lo hi s :=
    fun s => runChunksA_eq_loop1chunk cosf chunks lo hi h s
  have hB : ∀ s, runChunksB logf chunks s = loop2chunk logf lo hi s :=
    fun s => runChunksB_eq_loop2chunk logf chunks lo hi h s
  have hAfun : runChunksA cosf chunks = loop1chunk cosf lo hi := funext hA
  have hBfun : runChunksB logf chunks = loop2chunk logf lo hi := funext hB
  refine ⟨hA, hB, ?_, ?_, ?_⟩
  · intro s n
    rw [hAfun]
  · intro s n i j hi1 hi2 hij hjN
    rw [hAfun, loop1chunk_iter_a]
    have hcond : lo ≤ i ∧ i < lo + (hi - lo) ∧ i < j ∧ j < N := by omega
    rw [if_pos hcond]
  · intro s n
    rw [hBfun]

/-- Witness for C4: the partition `[(1,2), (0,1)]` of `[0, 2)`, processed out
of order. -/
theorem partitionInvariance_witness :
    (chunkIndices [(1, 2), (0, 1)]).Perm (List.range' 0 (2 - 0)) ∧
    ((∀ s, runChunksA (fun x => x) [(1, 2), (0, 1)] s = loop1chunk (fun x => x) 0 2 s) ∧
     (∀ s, runChunksB (fun x => x) [(1, 2), (0, 1)] s = loop2chunk (fun x => x) 0 2 s) ∧
     (∀ s n, (runChunksA (fun x => x) [(1, 2), (0, 1)])^[n] s =
       (loop1chunk (fun x => x) 0 2 s |> fun _ => (loop1chunk (fun x => x) 0 2)^[n] s)) ∧
     (∀ s n i j, 0 ≤ i → i < 2 → i < j → j < N →
       ((runChunksA (fun x => x) [(1, 2), (0, 1)])^[n] s).a i j =
         s.a i j + (n : ℚ) * (s.b i j)) ∧
     (∀ s n, valid2sum ((runChunksB (fun x => x) [(1, 2), (0, 1)])^[n] s) =
       valid2sum ((loop2chunk (fun x => x) 0 2)^[n] s))) :=
  ⟨by decide,
    partitionInvariance (fun x => x) (fun x => x) [(1, 2), (0, 1)] 0 2 (by decide)⟩

/-- C5: positivity precondition established by `init2`.  After `init2`,
`b i j = (i*j+1)/N²` and `b i j > 0` for all `i, j < N`, so every argument of
`log` that Kernel B accesses is strictly positive. -/
theorem positivityB (s : GState) (i j : ℕ) (h1 : i < N) (h2 : j < N) :
    (init2 s).b i j = ((i * j + 1 : ℕ) : ℚ) / ((N : ℚ) * N) ∧ 0 < (init2 s).b i j := by
  have hb : (init2 s).b i j = ((i * j + 1 : ℕ) : ℚ) / ((N : ℚ) * N) := by
    rw [init2_b, if_pos ⟨h1, h2⟩]
  refine ⟨hb, ?_⟩
  rw [hb]
  apply div_pos
  · exact_mod_cast Nat.succ_pos (i * j)
  · norm_num [N]

/-- Witness for C5 at cell `(2, 3)`. -/
theorem positivityB_witness :
    (2 : ℕ) < N ∧ (3 : ℕ) < N ∧
      ((init2 sMain).b 2 3 = ((2 * 3 + 1 : ℕ) : ℚ) / ((N : ℚ) * N) ∧
        0 < (init2 sMain).b 2 3) :=
  ⟨by norm_num [N], by norm_num [N],
    positivityB sMain 2 3 (by norm_num [N]) (by norm_num [N])⟩

/-- C6: end-to-end scenario.  With `N = 729` and `reps = 100`, starting from
`init1` (resp. `init2`), the checksum of `a` after `reps` calls of
`loop1chunk 0 N` is `reps` times the upper-triangle reference sum of
`cos (3.142*(i+j))`, and the checksum of `c` after `reps` calls of
`loop2chunk 0 N` is `reps` times the triple reference sum of
`(k+1) * log ((i*j+1)/N²) / N²`. -/
theorem endToEnd (cosf logf : ℚ → ℚ) (s : GState) :
    valid1sum ((loop1chunk cosf 0 N)^[reps] (init1 s)) =
      (reps : ℚ) * ∑ i ∈ Finset.range N, ∑ j ∈ Finset.range N,
        (if i < j then cosf ((3.142 : ℚ) * ((i : ℚ) + (j : ℚ))) else 0) ∧
    valid2sum ((loop2chunk logf 0 N)^[reps] (init2 s)) =
      (reps : ℚ) * ∑ i ∈ Finset.range N, ∑ j ∈ Finset.range (jmaxSpec i),
        ∑ k ∈ Finset.range j,
          ((k : ℚ) + 1) * logf (((i * j + 1 : ℕ) : ℚ) / ((N : ℚ) * N)) / ((N : ℚ) * N) := by
  constructor
  · rw [valid1sum_eq, Finset.mul_sum]
    apply Finset.sum_congr rfl
    intro i hi
    rw [Finset.mul_sum]
    apply Finset.sum_congr rfl
    intro j hj
    rw [Finset.mem_range] at hi hj
    rw [loop1chunk_iter_a]
    by_cases hij : i < j
    · have hcond : 0 ≤ i ∧ i < 0 + (N - 0) ∧ i < j ∧ j < N := by omega
      rw [if_pos hcond, if_pos hij, init1_a, if_pos ⟨hi, hj⟩, init1_b, if_pos ⟨hi, hj⟩,
        zero_add]
    · have hcond : ¬(0 ≤ i ∧ i < 0 + (N - 0) ∧ i < j ∧ j < N) := by tauto
      rw [if_neg hcond, if_neg hij, init1_a, if_pos ⟨hi, hj⟩, mul_zero]
  · rw [valid2sum_eq, Finset.mul_sum]
    apply Finset.sum_congr rfl
    intro i hi
    rw [Finset.mem_range] at hi
    rw [loop2chunk_iter_c]
    have hcond : 0 ≤ i ∧ i < 0 + (N - 0) := by omega
    rw [if_pos hcond, init2_c, if_pos hi, zero_add]
    have hsums : rowBsum logf (init2 s) i =
        ∑ j ∈ Finset.range (jmaxSpec i), ∑ k ∈ Finset.range j,
          ((k : ℚ) + 1) * logf (((i * j + 1 : ℕ) : ℚ) / ((N : ℚ) * N)) / ((N : ℚ) * N) := by
      simp only [rowBsum]
      have hjm : (init2 s).jmax i = jmaxSpec i := by rw [init2_jmax, if_pos hi]
      rw [hjm]
      apply Finset.sum_congr rfl
      intro j hj
      rw [Finset.mem_range] at hj
      have hjN : j < N := lt_of_lt_of_le hj (jmaxSpec_le i)
      apply Finset.sum_congr rfl
      intro k _
      rw [init2_b, if_pos ⟨hi, hjN⟩, rN2, mul_one_div]
    rw [hsums]

/-- C7: row exclusivity.  Processing outer index `i` in Kernel A writes only
row `i` of `a` (so the write sets of distinct rows are disjoint), processing
`i` in Kernel B writes only `c i`, and neither kernel writes `b` or `jmax`
(nor does Kernel A write `c`, nor Kernel B write `a`). -/
theorem rowExclusivity (cosf logf : ℚ → ℚ) (i i2 : ℕ) (h : i ≠ i2) :
    (∀ s j2, (rowA cosf s i).a i2 j2 = s.a i2 j2) ∧
    (∀ s, (rowB logf s i).c i2 = s.c i2) ∧
    (∀ s lo hi, (loop1chunk cosf lo hi s).b = s.b ∧ (loop1chunk cosf lo hi s).c = s.c ∧
      (loop1chunk cosf lo hi s).jmax = s.jmax) ∧
    (∀ s lo hi, (loop2chunk logf lo hi s).a = s.a ∧ (loop2chunk logf lo hi s).b = s.b ∧
      (loop2chunk logf lo hi s).jmax = s.jmax) := by
  have hne : i2 ≠ i := fun he => h he.symm
  refine ⟨?_, ?_, ?_, ?_⟩
  · intro s j2
    rw [rowA_a]
    simp [hne]
  · intro s
    rw [rowB_c, if_neg hne]
  · intro s lo hi
    exact ⟨loop1chunk_b cosf lo hi s, loop1chunk_c cosf lo hi s, loop1chunk_jmax cosf lo hi s⟩
  · intro s lo hi
    exact ⟨loop2chunk_a logf lo hi s, loop2chunk_b logf lo hi s, loop2chunk_jmax logf lo hi s⟩

/-- Witness for C7 at rows `0 ≠ 1`. -/
theorem rowExclusivity_witness :
    (0 : ℕ) ≠ 1 ∧
    ((∀ s j2, (rowA (fun x => x) s 0).a 1 j2 = s.a 1 j2) ∧
     (∀ s, (rowB (fun x => x) s 0).c 1 = s.c 1) ∧
     (∀ s lo hi, (loop1chunk (fun x => x) lo hi s).b = s.b ∧
       (loop1chunk (fun x => x) lo hi s).c = s.c ∧
       (loop1chunk (fun x => x) lo hi s).jmax = s.jmax) ∧
     (∀ s lo hi, (loop2chunk (fun x => x) lo hi s).a = s.a ∧
       (loop2chunk (fun x => x) lo hi s).b = s.b ∧
       (loop2chunk (fun x => x) lo hi s).jmax = s.jmax)) :=
  ⟨by norm_num, rowExclusivity (fun x => x) (fun x => x) 0 1 (by norm_num)⟩

/-- C8: empty-range boundary.  `loop1chunk 0 0` and `loop2chunk N N` perform
no iterations and leave the entire state unchanged. -/
theorem emptyRange (cosf logf : ℚ → ℚ) (s : GState) :
    loop1chunk cosf 0 0 s = s ∧ loop2chunk logf N N s = s := by
  constructor
  · rfl
  · show (List.range' N (N - N)).foldl (rowB logf) s = s
    rw [Nat.sub_self]
    rfl

/-- C9: idempotent initialization.  `init1` twice is `init1` once, and after
`init1` every cell with `i, j < N` has `a i j = 0` and
`b i j = 3.142 * (i + j)`, regardless of the prior contents of `a` and
`b`. -/
theorem init1Idempotent (s : GState) :
    init1 (init1 s) = init1 s ∧
    (∀ i j, i < N → j < N →
      (init1 s).a i j = 0 ∧ (init1 s).b i j = (3.142 : ℚ) * ((i : ℚ) + (j : ℚ))) := by
  constructor
  · have ha : (init1 (init1 s)).a = (init1 s).a := by
      funext i j
      rw [init1_a (init1 s) i j]
      by_cases hc : i < N ∧ j < N
      · rw [if_pos hc, init1_a s i j, if_pos hc]
      · rw [if_neg hc]
    have hb : (init1 (init1 s)).b = (init1 s).b := by
      funext i j
      rw [init1_b (init1 s) i j]
      by_cases hc : i < N ∧ j < N
      · rw [if_pos hc, init1_b s i j, if_pos hc]
      · rw [if_neg hc]
    have hc2 : (init1 (init1 s)).c = (init1 s).c := init1_c (init1 s)
    have hj2 : (init1 (init1 s)).jmax = (init1 s).jmax := init1_jmax (init1 s)
    exact GState.ext ha hb hc2 hj2
  · intro i j h1 h2
    rw [init1_a, if_pos ⟨h1, h2⟩, init1_b, if_pos ⟨h1, h2⟩]
    exact ⟨rfl, rfl⟩

/-- C10: the modulo divisor in `init2` is never zero — for every `i ≥ 0` the
divisor `3*(i/30)+1` is at least 1, so `i % (3*(i/30)+1)` is a well-defined
remainder, strictly below the divisor. -/
theorem modDivisorPos (i : ℕ) :
    0 < jmaxDivisor i ∧ i % jmaxDivisor i < jmaxDivisor i := by
  have hpos : 0 < jmaxDivisor i := by
    rw [jmaxDivisor]
    omega
  exact ⟨hpos, Nat.mod_lt i hpos⟩

end OMPSched
